import Mathlib

/-!
Verification of the snmalloc slab occupancy and free-list subsystem
(`src/mem/metaslab.h`).

Machine integers are embedded as `Nat` with explicit reductions modulo
`2 ^ 16` (for `uint16_t`) and `2 ^ 64` (for `size_t` on the 64-bit build).
The hardened build mode (`CHECK_CLIENT`) is a `Bool` parameter.
-/

namespace snmalloc

/-- Word size of the modelled build: a 64-bit target (`bits::BITS`). -/
def BITS : Nat := 64

/-- `Metaslab::POISON`: value used to check for corruptions in a block,
64-bit variant (`bits::is64()` true). -/
def POISON : Nat := 0xDEADBEEFDEAD0000

/-- The corruption-check expression computed by `Metaslab::follow_next` in
hardened mode: `(next ^ POISON) ^ (next << (bits::BITS - 16))`, with the
shift wrapping modulo `2 ^ 64` as `size_t` arithmetic does. -/
def checkValue (next : Nat) : Nat :=
  (next ^^^ POISON) ^^^ ((next <<< (BITS - 16)) % 2 ^ BITS)

/-- `Metaslab::store_next p head`: the machine word written into the free
block at `p`.  The argument is a `uint16_t`, hence the `% 65536`.  Plain
mode stores the raw offset; hardened (`CHECK_CLIENT`) mode stores
`head ^ POISON ^ (head << (bits::BITS - 16))`. -/
def store_next (hardened : Bool) (head : Nat) : Nat :=
  if hardened then
    (head % 65536) ^^^ POISON ^^^ (((head % 65536) <<< (BITS - 16)) % 2 ^ BITS)
  else
    head % 65536

/-- `Metaslab::follow_next` reading the machine word `next` from a free
block: in hardened mode it fatally errors ("Detected memory corruption.
Use-after-free.") when the check value exceeds `0xFFFF`; modelled as
`none`.  Otherwise it returns `next` cast to `uint16_t`. -/
def follow_next (hardened : Bool) (next : Nat) : Option Nat :=
  if hardened = true ∧ 0xFFFF < checkValue next then none
  else some (next % 65536)

theorem poison_testBit_low (j : Nat) (hj : j < 16) : POISON.testBit j = false := by
  have h0 : POISON % 2 ^ 16 = 0 := by decide
  have h1 : (POISON % 2 ^ 16).testBit j = (decide (j < 16) && POISON.testBit j) :=
    Nat.testBit_mod_two_pow POISON 16 j
  rw [h0] at h1
  simp [hj] at h1
  exact h1

theorem testBit_ge_of_lt {x n j : Nat} (hx : x < 2 ^ n) (hj : n ≤ j) :
    x.testBit j = false :=
  Nat.testBit_lt_two_pow (lt_of_lt_of_le hx (Nat.pow_le_pow_right (by omega) hj))

/-- Bit-level description of the hardened encoding of a 16-bit offset. -/
theorem store_testBit (o : Nat) (ho : o < 65536) (i : Nat) :
    (store_next true o).testBit i =
      if i < 16 then o.testBit i
      else if i < 48 then POISON.testBit i
      else if i < 64 then (POISON.testBit i != o.testBit (i - 48))
      else false := by
  have ho' : o % 65536 = o := Nat.mod_eq_of_lt ho
  have h16 : (65536 : Nat) = 2 ^ 16 := by norm_num
  have hstore : store_next true o = (o ^^^ POISON) ^^^ ((o <<< (BITS - 16)) % 2 ^ BITS) := by
    simp [store_next, ho']
  rw [hstore]
  simp only [Nat.testBit_xor, Nat.testBit_mod_two_pow, Nat.testBit_shiftLeft, BITS]
  by_cases h1 : i < 16
  · have hp : POISON.testBit i = false := poison_testBit_low i h1
    have hs : decide (i ≥ 64 - 16) = false := by simp; omega
    simp [h1, hp, hs]
  · by_cases h2 : i < 48
    · have hoi : o.testBit i = false := testBit_ge_of_lt (h16 ▸ ho) (by omega)
      have hs : decide (i ≥ 64 - 16) = false := by simp; omega
      simp [h1, h2, hoi, hs]
    · by_cases h3 : i < 64
      · have hoi : o.testBit i = false := testBit_ge_of_lt (h16 ▸ ho) (by omega)
        have hs : decide (i ≥ 64 - 16) = true := by simp; omega
        have hd : decide (i < 64) = true := by simp [h3]
        simp only [if_neg h1, if_neg h2, if_pos h3, hoi, hs, hd]
        show ((false != POISON.testBit i) != (true && (true && o.testBit (i - (64 - 16))))) =
          (POISON.testBit i != o.testBit (i - 48))
        cases POISON.testBit i <;> cases o.testBit (i - 48) <;> rfl
      · have hoi : o.testBit i = false := testBit_ge_of_lt (h16 ▸ ho) (by omega)
        have hp : POISON.testBit i = false :=
          testBit_ge_of_lt (show POISON < 2 ^ 64 by decide) (by omega)
        have hd : decide (i < 64) = false := by simp [h3]
        simp [h1, h2, h3, hoi, hp, hd]

/-- Bit-level description of the hardened corruption-check value. -/
theorem checkValue_testBit (w i : Nat) :
    (checkValue w).testBit i =
      ((w.testBit i != POISON.testBit i) !=
        (decide (i < 64) && (decide (48 ≤ i) && w.testBit (i - 48)))) := by
  simp only [checkValue, BITS, Nat.testBit_xor, Nat.testBit_mod_two_pow,
    Nat.testBit_shiftLeft]

theorem store_lt (hardened : Bool) (h : Nat) : store_next hardened h < 2 ^ 64 := by
  cases hardened
  · have : h % 65536 < 65536 := Nat.mod_lt _ (by norm_num)
    simp only [store_next, Bool.false_eq_true, if_false]
    omega
  · simp only [store_next, if_pos rfl]
    apply Nat.xor_lt_two_pow
    · apply Nat.xor_lt_two_pow
      · have : h % 65536 < 65536 := Nat.mod_lt _ (by norm_num)
        omega
      · decide
    · exact Nat.mod_lt _ (by positivity)

/-- Decoding the check value of a well-formed hardened encoding recovers the
original 16-bit offset. -/
theorem checkValue_store (o : Nat) (ho : o < 65536) :
    checkValue (store_next true o) = o := by
  have h16 : (65536 : Nat) = 2 ^ 16 := by norm_num
  apply Nat.eq_of_testBit_eq
  intro i
  rw [checkValue_testBit, store_testBit o ho i, store_testBit o ho (i - 48)]
  by_cases h1 : i < 16
  · have e1 : decide (48 ≤ i) = false := by rw [decide_eq_false_iff_not]; omega
    rw [if_pos h1, e1, poison_testBit_low i h1]
    simp
  · by_cases h2 : i < 48
    · have e1 : decide (48 ≤ i) = false := by rw [decide_eq_false_iff_not]; omega
      have e2 : o.testBit i = false := testBit_ge_of_lt (h16 ▸ ho) (by omega)
      rw [if_neg h1, if_pos h2, e1, e2]
      simp
    · by_cases h3 : i < 64
      · have e1 : decide (48 ≤ i) = true := by rw [decide_eq_true_eq]; omega
        have e2 : decide (i < 64) = true := by rw [decide_eq_true_eq]; omega
        have e3 : o.testBit i = false := testBit_ge_of_lt (h16 ▸ ho) (by omega)
        have e4 : i - 48 < 16 := by omega
        rw [if_neg h1, if_neg h2, if_pos h3, if_pos e4, e1, e2, e3]
        cases POISON.testBit i <;> cases o.testBit (i - 48) <;> rfl
      · have e1 : decide (i < 64) = false := by rw [decide_eq_false_iff_not]; omega
        have e2 : o.testBit i = false := testBit_ge_of_lt (h16 ▸ ho) (by omega)
        have e3 : POISON.testBit i = false :=
          testBit_ge_of_lt (show POISON < 2 ^ 64 by decide) (by omega)
        rw [if_neg h1, if_neg h2, if_neg h3, e1, e2, e3]
        simp

/-- The low 16 bits of a hardened encoding are the raw offset. -/
theorem store_mod (o : Nat) (ho : o < 65536) : store_next true o % 65536 = o := by
  have h16 : (65536 : Nat) = 2 ^ 16 := by norm_num
  apply Nat.eq_of_testBit_eq
  intro i
  rw [h16, Nat.testBit_mod_two_pow, store_testBit o ho i]
  by_cases h1 : i < 16
  · simp [h1]
  · have e2 : o.testBit i = false := testBit_ge_of_lt (h16 ▸ ho) (by omega)
    simp [h1, e2]

/-- Any machine word passing the hardened corruption check is exactly the
encoding of its own low 16 bits. -/
theorem pass_eq_store (w : Nat) (hw : w < 2 ^ 64) (hpass : checkValue w ≤ 0xFFFF) :
    w = store_next true (w % 65536) := by
  have h16 : (65536 : Nat) = 2 ^ 16 := by norm_num
  have hmlt : w % 65536 < 65536 := Nat.mod_lt _ (by norm_num)
  have hbit : ∀ i, 16 ≤ i → (checkValue w).testBit i = false := by
    intro i hi
    exact testBit_ge_of_lt (h16 ▸ (by omega : checkValue w < 65536)) hi
  apply Nat.eq_of_testBit_eq
  intro i
  rw [store_testBit (w % 65536) hmlt i]
  by_cases h1 : i < 16
  · rw [if_pos h1, h16, Nat.testBit_mod_two_pow]
    simp [h1]
  · by_cases h2 : i < 48
    · have hc := hbit i (by omega)
      rw [checkValue_testBit] at hc
      have e1 : decide (48 ≤ i) = false := by rw [decide_eq_false_iff_not]; omega
      rw [e1] at hc
      rw [if_neg h1, if_pos h2]
      revert hc
      cases w.testBit i <;> cases POISON.testBit i <;> simp
    · by_cases h3 : i < 64
      · have hc := hbit i (by omega)
        rw [checkValue_testBit] at hc
        have e1 : decide (48 ≤ i) = true := by rw [decide_eq_true_eq]; omega
        have e2 : decide (i < 64) = true := by rw [decide_eq_true_eq]; omega
        rw [e1, e2] at hc
        rw [if_neg h1, if_neg h2, if_pos h3, h16, Nat.testBit_mod_two_pow]
        have e5 : decide (i - 48 < 16) = true := by rw [decide_eq_true_eq]; omega
        rw [e5]
        revert hc
        cases w.testBit i <;> cases POISON.testBit i <;> cases w.testBit (i - 48) <;> simp
      · rw [if_neg h1, if_neg h2, if_neg h3]
        exact testBit_ge_of_lt hw (by omega)

/-- C1: for every representable 16-bit offset `o`, in both plain and hardened
build modes, writing `o` with `store_next` and reading it back with
`follow_next` returns exactly `o`, without taking the fatal corruption path
(the result is `some o`, never `none`). -/
theorem store_follow_roundtrip (hardened : Bool) (o : Nat) (ho : o < 65536) :
    follow_next hardened (store_next hardened o) = some o := by
  have ho' : o % 65536 = o := Nat.mod_eq_of_lt ho
  cases hardened
  · rw [follow_next, if_neg (by rintro ⟨h, _⟩; cases h)]
    simp [store_next, ho']
  · rw [follow_next, if_neg, store_mod o ho]
    rintro ⟨-, hlt⟩
    rw [checkValue_store o ho] at hlt
    omega

/-- Witness for C1: round trip at the concrete offset 1234 in hardened mode. -/
theorem store_follow_roundtrip_witness :
    (1234 : Nat) < 65536 ∧ follow_next true (store_next true 1234) = some 1234 :=
  ⟨by decide, store_follow_roundtrip true 1234 (by decide)⟩

/-- C7: in hardened mode `follow_next` recovers the stored offset by reversing
the store transform; it fails fatally (returns `none`) exactly when the
recovered value has nonzero bits above the low 16, and otherwise returns the
recovered 16-bit offset (the low 16 bits of the recovered value), never an
error. -/
theorem follow_next_hardened (w : Nat) :
    (follow_next true w = none ↔ 0xFFFF < checkValue w) ∧
    (checkValue w ≤ 0xFFFF → follow_next true w = some (checkValue w % 65536)) := by
  have hmod : checkValue w % 65536 = w % 65536 := by
    have h16 : (65536 : Nat) = 2 ^ 16 := by norm_num
    apply Nat.eq_of_testBit_eq
    intro j
    rw [h16, Nat.testBit_mod_two_pow, Nat.testBit_mod_two_pow]
    by_cases hj : j < 16
    · have e1 : decide (48 ≤ j) = false := by rw [decide_eq_false_iff_not]; omega
      rw [checkValue_testBit, e1, poison_testBit_low j hj]
      simp [hj]
    · simp [hj]
  rw [follow_next]
  by_cases hl : 0xFFFF < checkValue w
  · rw [if_pos ⟨rfl, hl⟩]
    exact ⟨⟨fun _ => hl, fun _ => rfl⟩, fun hle => absurd hl (not_lt.mpr hle)⟩
  · rw [if_neg (fun hc => hl hc.2)]
    refine ⟨⟨fun h => (Option.some_ne_none _ h).elim, fun h => absurd h hl⟩, fun _ => ?_⟩
    rw [hmod]

/-- Witness for C7: at the word `POISON` the recovered value is 0, the check
passes, and the recovered 16-bit offset 0 is returned. -/
theorem follow_next_hardened_witness :
    checkValue POISON ≤ 0xFFFF ∧ follow_next true POISON = some (checkValue POISON % 65536) :=
  ⟨by decide, (follow_next_hardened POISON).2 (by decide)⟩

/-- C2: in hardened mode, flipping any single bit of an encoded free-list word
makes `follow_next` take the fatal corruption path (there are no single-bit
corruptions that coincidentally still decode validly). -/
theorem single_bit_corruption (o i : Nat) (ho : o < 65536) (hi : i < 64) :
    follow_next true (store_next true o ^^^ 2 ^ i) = none := by
  have h16 : (65536 : Nat) = 2 ^ 16 := by norm_num
  have hwlt : store_next true o ^^^ 2 ^ i < 2 ^ 64 :=
    Nat.xor_lt_two_pow (store_lt true o) (Nat.pow_lt_pow_right (by omega) hi)
  have hWbit : ∀ j, (store_next true o ^^^ 2 ^ i).testBit j =
      ((store_next true o).testBit j != decide (i = j)) := by
    intro j
    rw [Nat.testBit_xor, Nat.testBit_two_pow]
  have key : ¬ checkValue (store_next true o ^^^ 2 ^ i) ≤ 0xFFFF := by
    intro hpass
    have hweq := pass_eq_store _ hwlt hpass
    by_cases hlow : i < 16
    · -- low-bit flip: the recovered offset is o ^^^ 2 ^ i; bit i + 48 disagrees
      have hxo : o ^^^ 2 ^ i < 65536 := by
        rw [h16]
        exact Nat.xor_lt_two_pow (h16 ▸ ho) (Nat.pow_lt_pow_right (by omega) hlow)
      have homod : (store_next true o ^^^ 2 ^ i) % 65536 = o ^^^ 2 ^ i := by
        apply Nat.eq_of_testBit_eq
        intro j
        rw [h16, Nat.testBit_mod_two_pow, hWbit j, store_testBit o ho j,
          Nat.testBit_xor, Nat.testBit_two_pow]
        by_cases hj : j < 16
        · simp [hj]
        · have e1 : o.testBit j = false := testBit_ge_of_lt (h16 ▸ ho) (by omega)
          have e2 : decide (i = j) = false := by rw [decide_eq_false_iff_not]; omega
          simp [hj, e1, e2]
      rw [homod] at hweq
      have hb := congrArg (fun t => t.testBit (i + 48)) hweq
      simp only [hWbit (i + 48), store_testBit o ho (i + 48),
        store_testBit (o ^^^ 2 ^ i) hxo (i + 48)] at hb
      have e1 : ¬ i + 48 < 16 := by omega
      have e2 : ¬ i + 48 < 48 := by omega
      have e3 : i + 48 < 64 := by omega
      have e4 : i + 48 - 48 = i := by omega
      have e5 : decide (i = i + 48) = false := by rw [decide_eq_false_iff_not]; omega
      rw [if_neg e1, if_neg e2, if_pos e3, if_neg e1, if_neg e2, if_pos e3, e4, e5,
        Nat.testBit_xor, Nat.testBit_two_pow] at hb
      have e6 : decide (i = i) = true := by rw [decide_eq_true_eq]
      rw [e6] at hb
      revert hb
      cases POISON.testBit (i + 48) <;> cases o.testBit i <;> simp
    · -- high-bit flip: the recovered offset is o itself, but bit i disagrees
      have homod : (store_next true o ^^^ 2 ^ i) % 65536 = o := by
        apply Nat.eq_of_testBit_eq
        intro j
        rw [h16, Nat.testBit_mod_two_pow, hWbit j, store_testBit o ho j]
        by_cases hj : j < 16
        · have e2 : decide (i = j) = false := by rw [decide_eq_false_iff_not]; omega
          simp [hj, e2]
        · have e1 : o.testBit j = false := testBit_ge_of_lt (h16 ▸ ho) (by omega)
          simp [hj, e1]
      rw [homod] at hweq
      have hb := congrArg (fun t => t.testBit i) hweq
      simp only [hWbit i] at hb
      revert hb
      cases (store_next true o).testBit i <;> simp
  rw [follow_next, if_pos ⟨rfl, by omega⟩]

/-- Witness for C2: flipping bit 0 of the encoding of offset 0 is detected. -/
theorem single_bit_corruption_witness :
    (0 : Nat) < 65536 ∧ (0 : Nat) < 64 ∧
      follow_next true (store_next true 0 ^^^ 2 ^ 0) = none :=
  ⟨by decide, by decide, single_bit_corruption 0 0 (by decide) (by decide)⟩

/-- C9: the hardened corruption check is complete and exact: a machine word
passes `follow_next` without the fatal path if and only if it is precisely
`store_next`'s encoding of some 16-bit offset; exactly `2 ^ 16` of all
machine words pass; and the offset returned is the one that was encoded. -/
theorem corruption_check_exact :
    (∀ w, w < 2 ^ 64 →
      (follow_next true w ≠ none ↔ ∃ o, o < 65536 ∧ w = store_next true o)) ∧
    (∀ w o, o < 65536 → w = store_next true o → follow_next true w = some o) ∧
    ((Finset.range (2 ^ 64)).filter (fun w => follow_next true w ≠ none)).card = 65536 := by
  have hpass : ∀ w, follow_next true w ≠ none ↔ checkValue w ≤ 0xFFFF := by
    intro w
    rw [follow_next]
    by_cases hl : 0xFFFF < checkValue w
    · rw [if_pos ⟨rfl, hl⟩]
      exact ⟨fun h => absurd rfl h, fun h => absurd hl (not_lt.mpr h)⟩
    · rw [if_neg (fun hc => hl hc.2)]
      exact ⟨fun _ => by omega, fun _ => Option.some_ne_none _⟩
  have hiff : ∀ w, w < 2 ^ 64 →
      (follow_next true w ≠ none ↔ ∃ o, o < 65536 ∧ w = store_next true o) := by
    intro w hw
    rw [hpass w]
    constructor
    · intro hle
      exact ⟨w % 65536, Nat.mod_lt _ (by norm_num), pass_eq_store w hw hle⟩
    · rintro ⟨o, ho, rfl⟩
      rw [checkValue_store o ho]
      omega
  have hret : ∀ w o, o < 65536 → w = store_next true o → follow_next true w = some o := by
    rintro w o ho rfl
    exact store_follow_roundtrip true o ho
  refine ⟨hiff, hret, ?_⟩
  have himg : (Finset.range (2 ^ 64)).filter (fun w => follow_next true w ≠ none) =
      (Finset.range 65536).image (store_next true) := by
    ext w
    simp only [Finset.mem_filter, Finset.mem_range, Finset.mem_image]
    constructor
    · rintro ⟨hw, hn⟩
      obtain ⟨o, ho, rfl⟩ := (hiff w hw).mp hn
      exact ⟨o, ho, rfl⟩
    · rintro ⟨o, ho, rfl⟩
      refine ⟨store_lt true o, (hiff _ (store_lt true o)).mpr ⟨o, ho, rfl⟩⟩
  rw [himg, Finset.card_image_of_injOn, Finset.card_range]
  intro a ha b hb hab
  have ha' : a < 65536 := Finset.mem_range.mp ha
  have hb' : b < 65536 := Finset.mem_range.mp hb
  rw [← store_mod a ha', ← store_mod b hb', hab]

/-- Witness for C9: the encoding of offset 42 decodes back to 42. -/
theorem corruption_check_exact_witness :
    (42 : Nat) < 65536 ∧ follow_next true (store_next true 42) = some 42 :=
  ⟨by decide, corruption_check_exact.2.1 (store_next true 42) 42 (by decide) rfl⟩

/-- Modelled from the spec: the slab size.  `SLAB_SIZE` is defined in the
external size-class header (`sizeclass.h`, not part of this subsystem); the
spec's scenario fixes slabs at 16384 bytes. -/
def SLAB_SIZE : Nat := 16384

/-- The `Metaslab` per-slab metadata record (`class Metaslab`): `used` is a
`uint16_t` occupancy count, `head` and `link` are `Mod<SLAB_SIZE, uint16_t>`
offsets (always reduced modulo `SLAB_SIZE`), `sizeclass` and `next` are
`uint8_t` bytes. -/
structure Metaslab where
  used : Nat
  head : Nat
  link : Nat
  sizeclass : Nat
  next : Nat

/-- `Metaslab::add_use`: `used++` in `uint16_t` arithmetic. -/
def add_use (m : Metaslab) : Metaslab :=
  { m with used := (m.used + 1) % 65536 }

/-- `Metaslab::sub_use`: `used--` in `uint16_t` arithmetic (wraps modulo
`2 ^ 16`; for `used < 65536` this is `(used + 65535) % 65536`). -/
def sub_use (m : Metaslab) : Metaslab :=
  { m with used := (m.used + 65535) % 65536 }

/-- `Metaslab::set_unused`: `used = 0`. -/
def set_unused (m : Metaslab) : Metaslab :=
  { m with used := 0 }

/-- `Metaslab::is_unused`: `used == 0`. -/
def is_unused (m : Metaslab) : Bool :=
  m.used == 0

/-- `Metaslab::is_full`: reads exactly the condition `link == 1`. -/
def is_full (m : Metaslab) : Bool :=
  m.link == 1

/-- `Metaslab::set_full`: asserts `head == 1` and `link != 1`, then sets
`link = 1`.  An assertion failure (debug build) is modelled as `none`. -/
def set_full (m : Metaslab) : Option Metaslab :=
  if m.head = 1 ∧ m.link ≠ 1 then some { m with link := 1 } else none

/-- C8: when `head == 1` and `link != 1`, both precondition assertions of
`set_full` pass and afterwards `link == 1` (so `is_full` returns `true`)
while `used`, `head`, `sizeclass` and `next` are unchanged; when `head != 1`
or `link == 1`, `set_full` fails an assertion (returns `none`). -/
theorem set_full_spec (m : Metaslab) :
    (m.head = 1 → m.link ≠ 1 →
      ∃ m2, set_full m = some m2 ∧ m2.link = 1 ∧ is_full m2 = true ∧
        m2.used = m.used ∧ m2.head = m.head ∧ m2.sizeclass = m.sizeclass ∧
        m2.next = m.next) ∧
    ((m.head ≠ 1 ∨ m.link = 1) → set_full m = none) := by
  constructor
  · intro h1 h2
    refine ⟨{ m with link := 1 }, ?_, rfl, rfl, rfl, rfl, rfl, rfl⟩
    rw [set_full, if_pos ⟨h1, h2⟩]
  · intro h
    rw [set_full, if_neg]
    rintro ⟨h1, h2⟩
    rcases h with h | h
    · exact h h1
    · exact h2 h

/-- Witness for C8 at a concrete metaslab with `head = 1`, `link = 0`. -/
theorem set_full_spec_witness :
    Metaslab.head ⟨5, 1, 0, 2, 3⟩ = 1 ∧ Metaslab.link ⟨5, 1, 0, 2, 3⟩ ≠ 1 ∧
      ∃ m2, set_full ⟨5, 1, 0, 2, 3⟩ = some m2 ∧ m2.link = 1 ∧ is_full m2 = true ∧
        m2.used = 5 ∧ m2.head = 1 ∧ m2.sizeclass = 2 ∧ m2.next = 3 :=
  ⟨rfl, by decide, (set_full_spec ⟨5, 1, 0, 2, 3⟩).1 rfl (by decide)⟩

/-- C10: the `used` counter is 16-bit modular: `sub_use` at `used == 0` wraps
to 65535 (after which `is_unused` is `false`, and a further `add_use`
restores 0), and for every starting value `add_use` followed by `sub_use`
leaves `used` unchanged. -/
theorem used_counter_modular (m : Metaslab) (hm : m.used < 65536) :
    (m.used = 0 →
      (sub_use m).used = 65535 ∧ is_unused (sub_use m) = false ∧
        (add_use (sub_use m)).used = 0) ∧
    (sub_use (add_use m)).used = m.used := by
  constructor
  · intro h0
    refine ⟨?_, ?_, ?_⟩
    · simp [sub_use, h0]
    · simp only [is_unused, sub_use, h0]
      decide
    · simp [add_use, sub_use, h0]
  · simp only [add_use, sub_use]
    omega

/-- Witness for C10 at a concrete metaslab with `used = 0`. -/
theorem used_counter_modular_witness :
    Metaslab.used ⟨0, 7, 9, 2, 3⟩ < 65536 ∧
      ((Metaslab.used ⟨0, 7, 9, 2, 3⟩ = 0 →
        (sub_use ⟨0, 7, 9, 2, 3⟩).used = 65535 ∧
          is_unused (sub_use ⟨0, 7, 9, 2, 3⟩) = false ∧
          (add_use (sub_use ⟨0, 7, 9, 2, 3⟩)).used = 0) ∧
        (sub_use (add_use ⟨0, 7, 9, 2, 3⟩)).used = Metaslab.used ⟨0, 7, 9, 2, 3⟩) :=
  ⟨by decide, used_counter_modular ⟨0, 7, 9, 2, 3⟩ (by decide)⟩

/-- Outcome of the debug cycle-detection walk: normal termination on reaching
a bump-tagged node, or the fatal double-free diagnostic
("Free list contains a cycle, typically indicates double free."). -/
inductive WalkOutcome where
  | normal : WalkOutcome
  | cycleFail : WalkOutcome
deriving DecidableEq

/-- The loop of `Metaslab::debug_slab_acyclic_free_list`, embedded with
explicit fuel (`none` = fuel exhausted, which the totality theorem rules
out).  `g` abstracts one step `curr = follow_next(pointer_offset(slab,
curr))`, whose return type `uint16_t` bounds its range; `curr` advances
every iteration, `slow` every other iteration, and coincidence of the two
is the fatal cycle path. -/
def walkAux (g : Nat → Nat) : Nat → Nat → Nat → Bool → Option WalkOutcome
  | 0, _, _, _ => none
  | fuel + 1, curr, slow, both =>
    if curr % 2 = 1 then some WalkOutcome.normal
    else if g curr = (if both then g slow else slow) then some WalkOutcome.cycleFail
    else walkAux g fuel (g curr) (if both then g slow else slow) (!both)

/-- `Metaslab::debug_slab_acyclic_free_list`: Floyd tortoise-and-hare
traversal starting from `head`, with fuel. -/
def debug_slab_acyclic_free_list (g : Nat → Nat) (head : Nat) (fuel : Nat) :
    Option WalkOutcome :=
  walkAux g fuel head head false

/-- One unfolding step of the walk, in terms of iterates of the successor:
at entry to iteration `k` the hare is at `g^[k] head`, the tortoise at
`g^[k / 2] head`, and the toggle records the parity of `k`. -/
theorem walkAux_succ_iter (g : Nat → Nat) (h0 : Nat) (n k : Nat)
    (hodd : ¬ (g^[k] h0) % 2 = 1) :
    walkAux g (n + 1) (g^[k] h0) (g^[k / 2] h0) (decide (k % 2 = 1)) =
      if g^[k + 1] h0 = g^[(k + 1) / 2] h0 then some WalkOutcome.cycleFail
      else walkAux g n (g^[k + 1] h0) (g^[(k + 1) / 2] h0) (decide ((k + 1) % 2 = 1)) := by
  rw [walkAux, if_neg hodd]
  have hc : g (g^[k] h0) = g^[k + 1] h0 := (Function.iterate_succ_apply' g k h0).symm
  have hs : (if decide (k % 2 = 1) = true then g (g^[k / 2] h0) else g^[k / 2] h0)
      = g^[(k + 1) / 2] h0 := by
    by_cases hk : k % 2 = 1
    · have hd : decide (k % 2 = 1) = true := by rw [decide_eq_true_eq]; exact hk
      rw [hd, if_pos rfl]
      have he : (k + 1) / 2 = k / 2 + 1 := by omega
      rw [he, Function.iterate_succ_apply']
    · have hd : decide (k % 2 = 1) = false := by rw [decide_eq_false_iff_not]; exact hk
      rw [hd, if_neg Bool.false_ne_true]
      have he : (k + 1) / 2 = k / 2 := by omega
      rw [he]
  have hboth : (!decide (k % 2 = 1)) = decide ((k + 1) % 2 = 1) := by
    by_cases hk : k % 2 = 1
    · have h1 : ¬ (k + 1) % 2 = 1 := by omega
      simp [hk, h1]
    · have h1 : (k + 1) % 2 = 1 := by omega
      simp [hk, h1]
  rw [hc, hs, hboth]

/-- If the walk exhausts its fuel, the hare never met the tortoise within
that many iterations. -/
theorem walkAux_none_no_meet (g : Nat → Nat) (h0 : Nat) :
    ∀ fuel k, walkAux g fuel (g^[k] h0) (g^[k / 2] h0) (decide (k % 2 = 1)) = none →
      ∀ m, k < m → m ≤ k + fuel → g^[m] h0 ≠ g^[m / 2] h0 := by
  intro fuel
  induction fuel with
  | zero => intro k _ m h1 h2; omega
  | succ n ih =>
    intro k hnone m h1 h2
    by_cases hodd : (g^[k] h0) % 2 = 1
    · rw [walkAux, if_pos hodd] at hnone; cases hnone
    · rw [walkAux_succ_iter g h0 n k hodd] at hnone
      by_cases hmeet : g^[k + 1] h0 = g^[(k + 1) / 2] h0
      · rw [if_pos hmeet] at hnone; cases hnone
      · rw [if_neg hmeet] at hnone
        by_cases hmk : m = k + 1
        · subst hmk; exact hmeet
        · exact ih (k + 1) hnone m (by omega) (by omega)

/-- If the first bump-tagged iterate is at index `T` and no meeting happens
up to `T`, the walk returns normally. -/
theorem walkAux_normal_of_tag (g : Nat → Nat) (h0 : Nat) :
    ∀ fuel k T, k ≤ T → T < k + fuel →
      (g^[T] h0) % 2 = 1 →
      (∀ m, k ≤ m → m < T → ¬ (g^[m] h0) % 2 = 1) →
      (∀ m, k < m → m ≤ T → g^[m] h0 ≠ g^[m / 2] h0) →
      walkAux g fuel (g^[k] h0) (g^[k / 2] h0) (decide (k % 2 = 1)) =
        some WalkOutcome.normal := by
  intro fuel
  induction fuel with
  | zero => intro k T h1 h2 _ _ _; omega
  | succ n ih =>
    intro k T h1 h2 hT huntag hnomeet
    by_cases hke : k = T
    · subst hke; rw [walkAux, if_pos hT]
    · have hodd : ¬ (g^[k] h0) % 2 = 1 := huntag k le_rfl (by omega)
      rw [walkAux_succ_iter g h0 n k hodd,
        if_neg (hnomeet (k + 1) (by omega) (by omega))]
      exact ih (k + 1) T (by omega) (by omega) hT
        (fun m hm1 hm2 => huntag m (by omega) hm2)
        (fun m hm1 hm2 => hnomeet m (by omega) hm2)

/-- A normal return of the walk exhibits a bump-tagged iterate. -/
theorem walkAux_normal_tag (g : Nat → Nat) (h0 : Nat) :
    ∀ fuel k,
      walkAux g fuel (g^[k] h0) (g^[k / 2] h0) (decide (k % 2 = 1)) =
        some WalkOutcome.normal →
      ∃ m, (g^[m] h0) % 2 = 1 := by
  intro fuel
  induction fuel with
  | zero => intro k h; cases h
  | succ n ih =>
    intro k h
    by_cases hodd : (g^[k] h0) % 2 = 1
    · exact ⟨k, hodd⟩
    · rw [walkAux_succ_iter g h0 n k hodd] at h
      by_cases hmeet : g^[k + 1] h0 = g^[(k + 1) / 2] h0
      · rw [if_pos hmeet] at h; cases h
      · rw [if_neg hmeet] at h
        exact ih (k + 1) h

/-- The iterates of a `uint16_t`-valued successor repeat within the first
65537 indices. -/
theorem iterate_collision (g : Nat → Nat) (h0 : Nat)
    (hg : ∀ x, g x < 65536) (hh : h0 < 65536) :
    ∃ i j, i < j ∧ j ≤ 65536 ∧ g^[i] h0 = g^[j] h0 := by
  have hlt : ∀ k, g^[k] h0 < 65536 := by
    intro k
    cases k with
    | zero => simpa using hh
    | succ n => rw [Function.iterate_succ_apply']; exact hg _
  have hmaps : ∀ a ∈ Finset.range 65537, g^[a] h0 ∈ Finset.range 65536 :=
    fun a _ => Finset.mem_range.mpr (hlt a)
  have hcard : (Finset.range 65536).card < (Finset.range 65537).card := by
    simp
  obtain ⟨i, hi, j, hj, hne, heq⟩ :=
    Finset.exists_ne_map_eq_of_card_lt_of_maps_to hcard hmaps
  have hi' : i < 65537 := Finset.mem_range.mp hi
  have hj' : j < 65537 := Finset.mem_range.mp hj
  rcases Nat.lt_or_ge i j with h | h
  · exact ⟨i, j, h, by omega, heq⟩
  · have hji : j < i := by omega
    exact ⟨j, i, hji, by omega, heq.symm⟩

/-- Once the iterates repeat with period `j - i` from index `i`, any later
index is stable under adding multiples of the period. -/
theorem iterate_periodic (g : Nat → Nat) (h0 : Nat) (i j : Nat) (hij : i < j)
    (heq : g^[i] h0 = g^[j] h0) :
    ∀ c t, i ≤ t → g^[t + (j - i) * c] h0 = g^[t] h0 := by
  have hone : ∀ t, i ≤ t → g^[t + (j - i)] h0 = g^[t] h0 := by
    intro t ht
    obtain ⟨d, rfl⟩ := Nat.exists_eq_add_of_le ht
    have h1 : i + d + (j - i) = d + j := by omega
    have h2 : i + d = d + i := by omega
    rw [h1, h2, Function.iterate_add_apply, Function.iterate_add_apply, heq]
  intro c
  induction c with
  | zero => intro t ht; simp
  | succ n ihc =>
    intro t ht
    have h3 : t + (j - i) * (n + 1) = (t + (j - i) * n) + (j - i) := by ring
    rw [h3, hone _ (by omega), ihc t ht]

/-- The hare always meets the tortoise within 131072 iterations (whether or
not a tagged node also appears). -/
theorem meet_exists (g : Nat → Nat) (h0 : Nat)
    (hg : ∀ x, g x < 65536) (hh : h0 < 65536) :
    ∃ m, 1 ≤ m ∧ m ≤ 131072 ∧ g^[m] h0 = g^[m / 2] h0 := by
  obtain ⟨i, j, hij, hj, heq⟩ := iterate_collision g h0 hg hh
  have hlpos : 0 < j - i := by omega
  have hdm := Nat.div_add_mod i (j - i)
  have hmod : i % (j - i) < j - i := Nat.mod_lt _ hlpos
  have hdl : i / (j - i) * (j - i) ≤ i := Nat.div_mul_le_self i (j - i)
  have hmp : (j - i) * (i / (j - i) + 1) = (j - i) * (i / (j - i)) + (j - i) :=
    Nat.mul_succ _ _
  have hcomm : (j - i) * (i / (j - i)) = i / (j - i) * (j - i) := Nat.mul_comm _ _
  have hmp1 : i < (j - i) * (i / (j - i) + 1) := by omega
  have hmp2 : (j - i) * (i / (j - i) + 1) ≤ j := by omega
  refine ⟨2 * ((j - i) * (i / (j - i) + 1)), by omega, by omega, ?_⟩
  have h2 : 2 * ((j - i) * (i / (j - i) + 1)) / 2 = (j - i) * (i / (j - i) + 1) := by
    omega
  rw [h2]
  have h3 : 2 * ((j - i) * (i / (j - i) + 1)) =
      (j - i) * (i / (j - i) + 1) + (j - i) * (i / (j - i) + 1) := by ring
  rw [h3]
  exact iterate_periodic g h0 i j hij heq (i / (j - i) + 1) _ (by omega)

/-- C6: `debug_slab_acyclic_free_list` terminates on every slab content: with
fuel 131073 the tortoise-and-hare walk never exhausts its fuel; whenever the
segment from `head` reaches a bump-tagged (low bit 1) node it returns
normally, and whenever it never does (the segment contains a cycle) it
detects the tortoise and hare coinciding and fails fatally with the
double-free diagnostic.  `g` is the `follow_next` successor, bounded by its
`uint16_t` return type. -/
theorem acyclic_free_list_total (g : Nat → Nat) (h0 : Nat)
    (hg : ∀ x, g x < 65536) (hh : h0 < 65536) :
    debug_slab_acyclic_free_list g h0 131073 ≠ none ∧
    ((∃ T, (g^[T] h0) % 2 = 1) →
      debug_slab_acyclic_free_list g h0 131073 = some WalkOutcome.normal) ∧
    ((∀ T, ¬ (g^[T] h0) % 2 = 1) →
      debug_slab_acyclic_free_list g h0 131073 = some WalkOutcome.cycleFail) := by
  have hne : debug_slab_acyclic_free_list g h0 131073 ≠ none := by
    intro hnone
    have hnone' : walkAux g 131073 (g^[0] h0) (g^[0 / 2] h0) (decide (0 % 2 = 1)) = none :=
      hnone
    obtain ⟨m, hm1, hm2, hmeq⟩ := meet_exists g h0 hg hh
    exact walkAux_none_no_meet g h0 131073 0 hnone' m (by omega) (by omega) hmeq
  have hnorm : (∃ T, (g^[T] h0) % 2 = 1) →
      debug_slab_acyclic_free_list g h0 131073 = some WalkOutcome.normal := by
    intro hex
    have hT := Nat.find_spec hex
    have hTmin := fun m (hm : m < Nat.find hex) => Nat.find_min hex hm
    have hdist : ∀ a b, a < b → b ≤ Nat.find hex → g^[a] h0 ≠ g^[b] h0 := by
      intro a b hab hbT heqab
      have hshift : g^[a + (Nat.find hex - b)] h0 = g^[Nat.find hex] h0 := by
        have h1 : a + (Nat.find hex - b) = (Nat.find hex - b) + a := by omega
        have h2 : Nat.find hex = (Nat.find hex - b) + b := by omega
        rw [h1, Function.iterate_add_apply, heqab, ← Function.iterate_add_apply, ← h2]
      have htag2 : (g^[a + (Nat.find hex - b)] h0) % 2 = 1 := by rw [hshift]; exact hT
      exact hTmin (a + (Nat.find hex - b)) (by omega) htag2
    obtain ⟨i, j, hij, hj, heq⟩ := iterate_collision g h0 hg hh
    have hTb : Nat.find hex < j := by
      by_contra hcon
      exact hdist i j hij (by omega) heq
    have hres : walkAux g 131073 (g^[0] h0) (g^[0 / 2] h0) (decide (0 % 2 = 1)) =
        some WalkOutcome.normal := by
      refine walkAux_normal_of_tag g h0 131073 0 (Nat.find hex) (by omega) (by omega) hT
        (fun m _ hm2 => hTmin m hm2) ?_
      intro m hm1 hm2 hmeq
      exact hdist (m / 2) m (by omega) hm2 hmeq.symm
    exact hres
  refine ⟨hne, hnorm, ?_⟩
  intro hall
  cases hres : debug_slab_acyclic_free_list g h0 131073 with
  | none => exact absurd hres hne
  | some r =>
    cases r with
    | normal =>
      have hres' : walkAux g 131073 (g^[0] h0) (g^[0 / 2] h0) (decide (0 % 2 = 1)) =
          some WalkOutcome.normal := hres
      obtain ⟨m, hm⟩ := walkAux_normal_tag g h0 131073 0 hres'
      exact absurd hm (hall m)
    | cycleFail => rfl

/-- Witness for C6: the constant-zero successor from head 0 is an immediate
self-loop, detected as a cycle. -/
theorem acyclic_free_list_total_witness :
    (∀ x, (fun _ : Nat => 0) x < 65536) ∧ (0 : Nat) < 65536 ∧
      debug_slab_acyclic_free_list (fun _ : Nat => 0) 0 131073 ≠ none :=
  ⟨fun _ => (by decide : (0 : Nat) < 65536), by decide,
    (acyclic_free_list_total (fun _ : Nat => 0) 0
      (fun _ => (by decide : (0 : Nat) < 65536)) (by decide)).1⟩

/-- Configuration of one slab, folding in the external size-class services
(spec section 6): `size = sizeclass_to_size(sizeclass)` and
`off0 = get_initial_link(sizeclass, is_short)`.  The constraints record
layout facts guaranteed by the external layer: a positive, even block size
dividing the region after the (even) initial link offset, with room for at
least the link block. -/
structure SlabCfg where
  size : Nat
  off0 : Nat
  size_pos : 0 < size
  size_even : size % 2 = 0
  off0_even : off0 % 2 = 0
  fits : off0 + size ≤ SLAB_SIZE
  aligned : size ∣ (SLAB_SIZE - off0)

/-- Number of blocks in the slab (including the reserved link block). -/
def numBlocks (cfg : SlabCfg) : Nat := (SLAB_SIZE - cfg.off0) / cfg.size

/-- A slab together with its metadata: `mem p` is the decoded next-offset
stored in the free block at offset `p` (contents of other offsets are
irrelevant to the model).  Keeping decoded offsets rather than encoded
machine words is justified by the round-trip theorem
`store_follow_roundtrip`. -/
structure SlabState where
  meta : Metaslab
  mem : Nat → Nat

/-- `p` is a block offset of the slab layout. -/
def IsBlock (cfg : SlabCfg) (p : Nat) : Prop :=
  cfg.off0 ≤ p ∧ p + cfg.size ≤ SLAB_SIZE ∧ cfg.size ∣ (p - cfg.off0)

/-- `b` is a bump frontier: every block below `b` has been handed out or
reserved at some point, everything from `b` up is untouched bump headroom. -/
def IsBump (cfg : SlabCfg) (b : Nat) : Prop :=
  cfg.off0 + cfg.size ≤ b ∧ b ≤ SLAB_SIZE ∧ cfg.size ∣ (b - cfg.off0)

/-- The free list chains from `h` through the stored next offsets to the
terminator `t`. -/
def isChain (mem : Nat → Nat) : Nat → List Nat → Nat → Prop
  | h, [], t => h = t
  | h, p :: rest, t => h = p ∧ isChain mem (mem p) rest t

/-- Decomposition of a not-full slab state: the free list `fl` chains from
`head` to the tagged bump frontier, the link node is a block not on the
free list and equals the initial link offset while bump headroom remains,
and the used counter accounts for every block below the frontier that is
neither free nor the link node. -/
def Decomp (cfg : SlabCfg) (s : SlabState) (fl : List Nat) (bump : Nat) : Prop :=
  IsBlock cfg s.meta.link ∧
  IsBump cfg bump ∧
  (bump < SLAB_SIZE → s.meta.link = cfg.off0) ∧
  fl.Nodup ∧
  (∀ p ∈ fl, IsBlock cfg p ∧ p < bump) ∧
  s.meta.link ∉ fl ∧
  isChain s.mem s.meta.head fl ((bump + 1) % SLAB_SIZE) ∧
  s.meta.used + fl.length + 1 = (bump - cfg.off0) / cfg.size

/-- Invariant carried by every reachable state: either the slab is full
(`link = 1`, `head = 1`, all blocks used) or it decomposes as a not-full
slab. -/
def GoodState (cfg : SlabCfg) (s : SlabState) : Prop :=
  (s.meta.link = 1 ∧ s.meta.head = 1 ∧ s.meta.used = numBlocks cfg) ∨
  (∃ fl bump, Decomp cfg s fl bump)

/-- Modelled from the spec: the claim operation (`Slab::alloc` lives in the
external slab layer, spec sections 2 and 4; only its Metaslab effects are
modelled).  Requires a not-full slab.  An even `head` is a free-list head:
that block is handed out and `head` advances through the stored next offset
(read back through `follow_next`, hence the `uint16_t` truncation, then
reduced by the `Mod` offset type).  An odd `head` other than 1 is a bump
cursor: the block below it is handed out and the cursor advances by one
block size.  A `head` of exactly 1 means only the reserved link block
remains: it is handed out and the slab is marked full.  Every path counts
the block with `add_use`. -/
def slabAlloc (cfg : SlabCfg) (s : SlabState) : Option (SlabState × Nat) :=
  if s.meta.link = 1 then none
  else if s.meta.head % 2 = 0 then
    some ({ s with
      meta := { (add_use s.meta) with head := s.mem s.meta.head % 65536 % SLAB_SIZE } },
      s.meta.head)
  else if s.meta.head = 1 then
    some ({ s with meta := { (add_use s.meta) with link := 1 } }, s.meta.link)
  else
    some ({ s with
      meta := { (add_use s.meta) with head := (s.meta.head + cfg.size) % SLAB_SIZE } },
      s.meta.head - 1)

/-- Modelled from the spec: the release operation (`Slab::dealloc`, external
slab layer).  Releasing into a full slab turns the freed block into the new
link node (the slab rejoins the has-space list).  Otherwise the freed block
is pushed onto the free list: the old head is stored into it (through
`store_next`) and `head` points at it.  Both paths count the block off with
`sub_use`. -/
def slabDealloc (cfg : SlabCfg) (s : SlabState) (p : Nat) : SlabState :=
  if s.meta.link = 1 then
    { s with meta := { (sub_use s.meta) with link := p % SLAB_SIZE } }
  else
    { meta := { (sub_use s.meta) with head := p % SLAB_SIZE },
      mem := fun q => if q = p then s.meta.head else s.mem q }

/-- Modelled from the spec: the discipline the external single-writer layer
respects when releasing `p` - only currently-allocated block offsets are
released, i.e. blocks that are not on the free list, are not the link node,
and lie below the bump frontier. -/
def FreeOK (cfg : SlabCfg) (s : SlabState) (p : Nat) : Prop :=
  IsBlock cfg p ∧
  ∀ fl bump, Decomp cfg s fl bump → p ∉ fl ∧ p ≠ s.meta.link ∧ p < bump

/-- Modelled from the spec: states reachable from a freshly carved slab
(`used = 0`, `head` = first bump offset past the link block with the tag
bit set, `link` = initial link offset, arbitrary slab memory) by claim and
release operations respecting the discipline. -/
inductive Reach (cfg : SlabCfg) : SlabState → Prop where
  | init : ∀ sc nx mem,
      Reach cfg ⟨⟨0, (cfg.off0 + cfg.size + 1) % SLAB_SIZE, cfg.off0, sc, nx⟩, mem⟩
  | alloc : ∀ s s2 p, Reach cfg s → slabAlloc cfg s = some (s2, p) → Reach cfg s2
  | dealloc : ∀ s p, Reach cfg s → FreeOK cfg s p → Reach cfg (slabDealloc cfg s p)

theorem isBlock_lt (cfg : SlabCfg) (p : Nat) (hp : IsBlock cfg p) : p < SLAB_SIZE := by
  have h1 := hp.2.1
  have h2 := cfg.size_pos
  omega

theorem isBlock_even (cfg : SlabCfg) (p : Nat) (hp : IsBlock cfg p) : p % 2 = 0 := by
  obtain ⟨h1, h2, k, hk⟩ := hp
  have he := cfg.size_even
  have ho := cfg.off0_even
  have hpar : cfg.size * k % 2 = 0 :=
    Nat.even_iff.mp (Nat.even_mul.mpr (Or.inl (Nat.even_iff.mpr he)))
  generalize hA : cfg.size * k = A at hk hpar
  omega

theorem isBlock_ne_one (cfg : SlabCfg) (p : Nat) (hp : IsBlock cfg p) : p ≠ 1 := by
  have := isBlock_even cfg p hp
  omega

theorem isBump_even (cfg : SlabCfg) (b : Nat) (hb : IsBump cfg b) : b % 2 = 0 := by
  obtain ⟨h1, h2, k, hk⟩ := hb
  have he := cfg.size_even
  have ho := cfg.off0_even
  have hs := cfg.size_pos
  have hpar : cfg.size * k % 2 = 0 :=
    Nat.even_iff.mp (Nat.even_mul.mpr (Or.inl (Nat.even_iff.mpr he)))
  generalize hA : cfg.size * k = A at hk hpar
  omega

/-- A bump frontier strictly below the slab end leaves at least one whole
block of headroom. -/
theorem bump_headroom (cfg : SlabCfg) (b : Nat) (hb : IsBump cfg b)
    (hlt : b < SLAB_SIZE) : b + cfg.size ≤ SLAB_SIZE := by
  obtain ⟨h1, h2, k, hk⟩ := hb
  obtain ⟨n, hn⟩ := cfg.aligned
  have hs := cfg.size_pos
  have hf := cfg.fits
  -- SLAB_SIZE - b = size * (n - k) with n > k
  have hkn : k < n := by
    by_contra hcon
    have : cfg.size * n ≤ cfg.size * k := Nat.mul_le_mul_left _ (by omega)
    omega
  have : cfg.size * (k + 1) ≤ cfg.size * n := Nat.mul_le_mul_left _ (by omega)
  have hmul : cfg.size * (k + 1) = cfg.size * k + cfg.size := Nat.mul_succ _ _
  omega

/-- The tagged frontier value stored in `head`: odd, below `SLAB_SIZE`, and
equal to 1 exactly at the fully-bump-allocated frontier. -/
theorem tag_spec (cfg : SlabCfg) (b : Nat) (hb : IsBump cfg b) :
    (b + 1) % SLAB_SIZE % 2 = 1 ∧ (b + 1) % SLAB_SIZE < SLAB_SIZE ∧
      (b < SLAB_SIZE → (b + 1) % SLAB_SIZE = b + 1) ∧
      (b = SLAB_SIZE → (b + 1) % SLAB_SIZE = 1) := by
  have heven := isBump_even cfg b hb
  have h2 := hb.2.1
  have h1 := hb.1
  have hs := cfg.size_pos
  constructor
  · rcases Nat.lt_or_ge b SLAB_SIZE with h | h
    · have : (b + 1) % SLAB_SIZE = b + 1 := Nat.mod_eq_of_lt (by
        have hr := bump_headroom cfg b hb h
        have hp := cfg.size_pos
        have hev := cfg.size_even
        omega)
      omega
    · have hbe : b = SLAB_SIZE := by omega
      subst hbe
      norm_num [SLAB_SIZE]
  · refine ⟨Nat.mod_lt _ (by norm_num [SLAB_SIZE]), ?_, ?_⟩
    · intro h
      exact Nat.mod_eq_of_lt (by
        have hr := bump_headroom cfg b hb h
        have hp := cfg.size_pos
        have hev := cfg.size_even
        omega)
    · intro h
      subst h
      norm_num [SLAB_SIZE]

theorem isChain_update (mem : Nat → Nat) (p v : Nat) :
    ∀ (fl : List Nat) (h t : Nat), p ∉ fl → isChain mem h fl t →
      isChain (fun q => if q = p then v else mem q) h fl t := by
  intro fl
  induction fl with
  | nil => intro h t _ hch; exact hch
  | cons x rest ih =>
    intro h t hp hch
    have hxp : ¬ x = p := fun he => hp (he ▸ List.mem_cons_self x rest)
    refine ⟨hch.1, ?_⟩
    have hgoal : isChain (fun q => if q = p then v else mem q) (mem x) rest t :=
      ih (mem x) t (fun hm => hp (List.mem_cons_of_mem x hm)) hch.2
    simpa [hxp] using hgoal

theorem isChain_next_mem (mem : Nat → Nat) :
    ∀ (fl : List Nat) (h t : Nat), isChain mem h fl t →
      ∀ p ∈ fl, mem p ∈ fl ∨ mem p = t := by
  intro fl
  induction fl with
  | nil => intro h t _ p hp; cases hp
  | cons x rest ih =>
    intro h t hch p hp
    rcases List.mem_cons.mp hp with rfl | hp2
    · cases rest with
      | nil => exact Or.inr hch.2
      | cons y ys =>
        have h1 : mem p = y := hch.2.1
        exact Or.inl (by rw [h1]; exact List.mem_cons_of_mem p (List.mem_cons_self y ys))
    · rcases ih (mem x) t hch.2 p hp2 with h1 | h1
      · exact Or.inl (List.mem_cons_of_mem x h1)
      · exact Or.inr h1

theorem isChain_head_cases (mem : Nat → Nat) (fl : List Nat) (h t : Nat)
    (hch : isChain mem h fl t) : h ∈ fl ∨ h = t := by
  cases fl with
  | nil => exact Or.inr hch
  | cons x rest => exact Or.inl (by rw [hch.1]; exact List.mem_cons_self x rest)

/-- A duplicate-free list of block offsets below an aligned frontier has at
most one entry per block. -/
theorem length_le_blocks (cfg : SlabCfg) (bump : Nat) (hb : cfg.size ∣ (bump - cfg.off0))
    (l : List Nat) (hnd : l.Nodup) (hmem : ∀ p ∈ l, IsBlock cfg p ∧ p < bump) :
    l.length ≤ (bump - cfg.off0) / cfg.size := by
  have hinj : ∀ x ∈ l, ∀ y ∈ l,
      (x - cfg.off0) / cfg.size = (y - cfg.off0) / cfg.size → x = y := by
    intro x hx y hy heq
    obtain ⟨⟨hx1, _, hxd⟩, _⟩ := hmem x hx
    obtain ⟨⟨hy1, _, hyd⟩, _⟩ := hmem y hy
    have hxe : (x - cfg.off0) / cfg.size * cfg.size = x - cfg.off0 := Nat.div_mul_cancel hxd
    have hye : (y - cfg.off0) / cfg.size * cfg.size = y - cfg.off0 := Nat.div_mul_cancel hyd
    rw [heq] at hxe
    omega
  have hmap : (l.map (fun p => (p - cfg.off0) / cfg.size)).Nodup :=
    List.Nodup.map_on hinj hnd
  have hsub : (l.map (fun p => (p - cfg.off0) / cfg.size)).toFinset ⊆
      Finset.range ((bump - cfg.off0) / cfg.size) := by
    intro a ha
    rw [List.mem_toFinset] at ha
    obtain ⟨p, hp, rfl⟩ := List.mem_map.mp ha
    obtain ⟨⟨hp1, _, _⟩, hplt⟩ := hmem p hp
    rw [Finset.mem_range]
    exact Nat.div_lt_div_of_lt_of_dvd hb (by omega)
  have hcard := Finset.card_le_card hsub
  rw [List.toFinset_card_of_nodup hmap, Finset.card_range, List.length_map] at hcard
  exact hcard

theorem decomp_bounds (cfg : SlabCfg) (s : SlabState) (fl : List Nat) (bump : Nat)
    (hd : Decomp cfg s fl bump) :
    s.meta.used + fl.length + 1 = (bump - cfg.off0) / cfg.size ∧
    (bump - cfg.off0) / cfg.size ≤ numBlocks cfg ∧
    1 ≤ (bump - cfg.off0) / cfg.size ∧
    numBlocks cfg < 65536 := by
  obtain ⟨hlb, hbp, hlk, hnd, hmem, hnl, hch, hused⟩ := hd
  refine ⟨hused, ?_, ?_, ?_⟩
  · exact Nat.div_le_div_right (by have := hbp.2.1; omega)
  · rw [Nat.le_div_iff_mul_le cfg.size_pos]
    have h1 := hbp.1
    omega
  · have h1 : numBlocks cfg ≤ SLAB_SIZE - cfg.off0 := Nat.div_le_self _ _
    have h2 : SLAB_SIZE = 16384 := rfl
    omega

theorem good_init (cfg : SlabCfg) (sc nx : Nat) (mem : Nat → Nat) :
    GoodState cfg ⟨⟨0, (cfg.off0 + cfg.size + 1) % SLAB_SIZE, cfg.off0, sc, nx⟩, mem⟩ := by
  right
  refine ⟨[], cfg.off0 + cfg.size, ?_⟩
  have hs := cfg.size_pos
  have hf := cfg.fits
  refine ⟨⟨le_refl _, hf, by simp⟩, ⟨le_refl _, hf, by simp⟩, fun _ => rfl,
    List.nodup_nil, by simp, by simp, rfl, ?_⟩
  show 0 + 0 + 1 = (cfg.off0 + cfg.size - cfg.off0) / cfg.size
  have h1 : cfg.off0 + cfg.size - cfg.off0 = cfg.size := by omega
  rw [h1, Nat.div_self hs]


theorem slabDealloc_full (cfg : SlabCfg) (s : SlabState) (p : Nat)
    (hl : s.meta.link = 1) :
    slabDealloc cfg s p =
      ⟨⟨(s.meta.used + 65535) % 65536, s.meta.head, p % SLAB_SIZE,
        s.meta.sizeclass, s.meta.next⟩, s.mem⟩ := by
  simp [slabDealloc, sub_use, hl]

theorem slabDealloc_notfull (cfg : SlabCfg) (s : SlabState) (p : Nat)
    (hl : ¬ s.meta.link = 1) :
    slabDealloc cfg s p =
      ⟨⟨(s.meta.used + 65535) % 65536, p % SLAB_SIZE, s.meta.link,
        s.meta.sizeclass, s.meta.next⟩,
        fun q => if q = p then s.meta.head else s.mem q⟩ := by
  simp [slabDealloc, sub_use, hl]

theorem slabAlloc_freelist (cfg : SlabCfg) (s : SlabState)
    (hl : ¬ s.meta.link = 1) (hh : s.meta.head % 2 = 0) :
    slabAlloc cfg s =
      some (⟨⟨(s.meta.used + 1) % 65536, s.mem s.meta.head % 65536 % SLAB_SIZE,
        s.meta.link, s.meta.sizeclass, s.meta.next⟩, s.mem⟩, s.meta.head) := by
  simp [slabAlloc, add_use, hl, hh]

theorem slabAlloc_linknode (cfg : SlabCfg) (s : SlabState)
    (hl : ¬ s.meta.link = 1) (hh : ¬ s.meta.head % 2 = 0) (h1 : s.meta.head = 1) :
    slabAlloc cfg s =
      some (⟨⟨(s.meta.used + 1) % 65536, s.meta.head, 1,
        s.meta.sizeclass, s.meta.next⟩, s.mem⟩, s.meta.link) := by
  simp [slabAlloc, add_use, hl, hh, h1]

theorem slabAlloc_bump (cfg : SlabCfg) (s : SlabState)
    (hl : ¬ s.meta.link = 1) (hh : ¬ s.meta.head % 2 = 0) (h1 : ¬ s.meta.head = 1) :
    slabAlloc cfg s =
      some (⟨⟨(s.meta.used + 1) % 65536, (s.meta.head + cfg.size) % SLAB_SIZE,
        s.meta.link, s.meta.sizeclass, s.meta.next⟩, s.mem⟩, s.meta.head - 1) := by
  simp [slabAlloc, add_use, hl, hh, h1]

theorem good_dealloc (cfg : SlabCfg) (s : SlabState) (p : Nat)
    (hg : GoodState cfg s) (hf : FreeOK cfg s p) :
    GoodState cfg (slabDealloc cfg s p) := by
  obtain ⟨hpb, hfq⟩ := hf
  have hplt : p < SLAB_SIZE := isBlock_lt cfg p hpb
  have hpmod : p % SLAB_SIZE = p := Nat.mod_eq_of_lt hplt
  rcases hg with ⟨hl, hh, hu⟩ | ⟨fl, bump, hd⟩
  · rw [slabDealloc_full cfg s p hl]
    right
    refine ⟨[], SLAB_SIZE, ?_, ⟨cfg.fits, le_refl _, cfg.aligned⟩,
      fun hlt => absurd hlt (lt_irrefl _), List.nodup_nil, by simp, by simp, ?_, ?_⟩
    · show IsBlock cfg (p % SLAB_SIZE)
      rw [hpmod]
      exact hpb
    · show s.meta.head = (SLAB_SIZE + 1) % SLAB_SIZE
      rw [hh]
      norm_num [SLAB_SIZE]
    · show (s.meta.used + 65535) % 65536 + List.length [] + 1 =
        (SLAB_SIZE - cfg.off0) / cfg.size
      have h1 : 1 ≤ (SLAB_SIZE - cfg.off0) / cfg.size := by
        rw [Nat.le_div_iff_mul_le cfg.size_pos]
        have := cfg.fits
        omega
      have h2 : (SLAB_SIZE - cfg.off0) / cfg.size ≤ SLAB_SIZE - cfg.off0 :=
        Nat.div_le_self _ _
      have h3 : SLAB_SIZE = 16384 := rfl
      have h4 : s.meta.used = (SLAB_SIZE - cfg.off0) / cfg.size := hu
      simp only [List.length_nil]
      omega
  · have hdfull : Decomp cfg s fl bump := hd
    obtain ⟨hlb, hbp, hlk, hnd, hmem, hnl, hch, hused⟩ := hd
    have hlne : ¬ s.meta.link = 1 := isBlock_ne_one cfg _ hlb
    obtain ⟨hpfl, hplk, hpbump⟩ := hfq fl bump hdfull
    rw [slabDealloc_notfull cfg s p hlne]
    right
    refine ⟨p :: fl, bump, ?_⟩
    have hlkbump : s.meta.link < bump := by
      rcases Nat.lt_or_ge bump SLAB_SIZE with hblt | hbge
      · rw [hlk hblt]
        have := hbp.1
        have := cfg.size_pos
        omega
      · have hbeq : bump = SLAB_SIZE := by have := hbp.2.1; omega
        rw [hbeq]
        exact isBlock_lt cfg _ hlb
    have hcount : (p :: s.meta.link :: fl).length ≤ (bump - cfg.off0) / cfg.size := by
      refine length_le_blocks cfg bump hbp.2.2 _ ?_ ?_
      · rw [List.nodup_cons, List.nodup_cons]
        refine ⟨?_, fun hm => hnl hm, hnd⟩
        intro hm
        rcases List.mem_cons.mp hm with he | hm2
        · exact hplk he
        · exact hpfl hm2
      · intro q hq
        rcases List.mem_cons.mp hq with rfl | hq2
        · exact ⟨hpb, hpbump⟩
        · rcases List.mem_cons.mp hq2 with rfl | hq3
          · exact ⟨hlb, hlkbump⟩
          · exact hmem q hq3
    refine ⟨hlb, hbp, hlk, List.nodup_cons.mpr ⟨hpfl, hnd⟩, ?_, ?_, ?_, ?_⟩
    · intro q hq
      rcases List.mem_cons.mp hq with rfl | hq2
      · exact ⟨hpb, hpbump⟩
      · exact hmem q hq2
    · intro hm
      rcases List.mem_cons.mp hm with he | hm2
      · exact hplk he.symm
      · exact hnl hm2
    · show isChain (fun q => if q = p then s.meta.head else s.mem q) (p % SLAB_SIZE)
        (p :: fl) ((bump + 1) % SLAB_SIZE)
      refine ⟨hpmod, ?_⟩
      show isChain (fun q => if q = p then s.meta.head else s.mem q)
        (if p = p then s.meta.head else s.mem p) fl ((bump + 1) % SLAB_SIZE)
      rw [if_pos rfl]
      exact isChain_update s.mem p s.meta.head fl s.meta.head _ hpfl hch
    · show (s.meta.used + 65535) % 65536 + List.length (p :: fl) + 1 =
        (bump - cfg.off0) / cfg.size
      have hb2 := decomp_bounds cfg s fl bump hdfull
      have hlen : (p :: s.meta.link :: fl).length = fl.length + 2 := by simp
      have hlen2 : List.length (p :: fl) = fl.length + 1 := by simp
      omega

theorem good_alloc (cfg : SlabCfg) (s s2 : SlabState) (p : Nat)
    (hg : GoodState cfg s) (h : slabAlloc cfg s = some (s2, p)) : GoodState cfg s2 := by
  rcases hg with ⟨hl, hh, hu⟩ | ⟨fl, bump, hd⟩
  · rw [slabAlloc, if_pos hl] at h
    cases h
  · have hdfull : Decomp cfg s fl bump := hd
    obtain ⟨hlb, hbp, hlk, hnd, hmem, hnl, hch, hused⟩ := hd
    have hlne : ¬ s.meta.link = 1 := isBlock_ne_one cfg _ hlb
    have hbounds := decomp_bounds cfg s fl bump hdfull
    obtain ⟨htodd, htlt, htlt_eq, hteq1⟩ := tag_spec cfg bump hbp
    cases fl with
    | cons x rest =>
      have hhx : s.meta.head = x := hch.1
      obtain ⟨hxb, hxlt⟩ := hmem x (List.mem_cons_self x rest)
      have hhe : s.meta.head % 2 = 0 := by rw [hhx]; exact isBlock_even cfg x hxb
      rw [slabAlloc_freelist cfg s hlne hhe, Option.some.injEq, Prod.mk.injEq] at h
      obtain ⟨hs2, -⟩ := h
      subst hs2
      right
      have hmx : s.mem x < SLAB_SIZE := by
        cases rest with
        | nil =>
          have : s.mem x = (bump + 1) % SLAB_SIZE := hch.2
          rw [this]
          exact htlt
        | cons y ys =>
          have hy : s.mem x = y := hch.2.1
          rw [hy]
          exact isBlock_lt cfg y (hmem y (by simp)).1
      have hmx2 : s.mem s.meta.head % 65536 % SLAB_SIZE = s.mem x := by
        have hS : SLAB_SIZE = 16384 := rfl
        rw [hhx, Nat.mod_eq_of_lt (by omega : s.mem x < 65536),
          Nat.mod_eq_of_lt hmx]
      refine ⟨rest, bump, hlb, hbp, hlk, hnd.of_cons, ?_, ?_, ?_, ?_⟩
      · intro q hq
        exact hmem q (List.mem_cons_of_mem x hq)
      · intro hm
        exact hnl (List.mem_cons_of_mem x hm)
      · show isChain s.mem (s.mem s.meta.head % 65536 % SLAB_SIZE) rest
          ((bump + 1) % SLAB_SIZE)
        rw [hmx2]
        exact hch.2
      · show (s.meta.used + 1) % 65536 + List.length rest + 1 =
          (bump - cfg.off0) / cfg.size
        have hlen : List.length (x :: rest) = rest.length + 1 := by simp
        omega
    | nil =>
      have hht : s.meta.head = (bump + 1) % SLAB_SIZE := hch
      have hho : ¬ s.meta.head % 2 = 0 := by rw [hht]; omega
      rcases Nat.lt_or_ge bump SLAB_SIZE with hblt | hbge
      · -- bump branch
        have hh1 : s.meta.head = bump + 1 := by rw [hht, htlt_eq hblt]
        have hne1 : ¬ s.meta.head = 1 := by
          rw [hh1]
          have := hbp.1
          have := cfg.size_pos
          omega
        rw [slabAlloc_bump cfg s hlne hho hne1, Option.some.injEq, Prod.mk.injEq] at h
        obtain ⟨hs2, -⟩ := h
        subst hs2
        right
        have hroom : bump + cfg.size ≤ SLAB_SIZE := bump_headroom cfg bump hbp hblt
        refine ⟨[], bump + cfg.size, hlb, ?_, ?_, List.nodup_nil, by simp, by simp,
          ?_, ?_⟩
        · refine ⟨by have := hbp.1; have := cfg.size_pos; omega, hroom, ?_⟩
          have hd2 := hbp.2.2
          have : bump + cfg.size - cfg.off0 = (bump - cfg.off0) + cfg.size := by
            have := hbp.1
            have := cfg.size_pos
            omega
          rw [this]
          exact Nat.dvd_add hd2 dvd_rfl
        · intro hlt2
          exact hlk hblt
        · show (s.meta.head + cfg.size) % SLAB_SIZE = (bump + cfg.size + 1) % SLAB_SIZE
          rw [hh1]
          congr 1
          omega
        · show (s.meta.used + 1) % 65536 + List.length ([] : List Nat) + 1 =
            (bump + cfg.size - cfg.off0) / cfg.size
          have h1 : bump + cfg.size - cfg.off0 = (bump - cfg.off0) + cfg.size := by
            have := hbp.1
            have := cfg.size_pos
            omega
          rw [h1, Nat.add_div_right _ cfg.size_pos]
          have hlen : List.length ([] : List Nat) = 0 := rfl
          omega
      · -- the link node is the last allocation: the slab becomes full
        have hbeq : bump = SLAB_SIZE := by have := hbp.2.1; omega
        have hh1 : s.meta.head = 1 := by
          rw [hht]
          exact hteq1 hbeq
        rw [slabAlloc_linknode cfg s hlne hho hh1, Option.some.injEq, Prod.mk.injEq] at h
        obtain ⟨hs2, -⟩ := h
        subst hs2
        left
        refine ⟨rfl, hh1, ?_⟩
        show (s.meta.used + 1) % 65536 = numBlocks cfg
        have h1 : (bump - cfg.off0) / cfg.size = numBlocks cfg := by rw [hbeq]; rfl
        have hlen0 : List.length ([] : List Nat) = 0 := rfl
        omega

theorem reach_good (cfg : SlabCfg) (s : SlabState) (h : Reach cfg s) :
    GoodState cfg s := by
  induction h with
  | init sc nx mem => exact good_init cfg sc nx mem
  | alloc s s2 p hr hsome ih => exact good_alloc cfg s s2 p ih hsome
  | dealloc s p hr hfree ih => exact good_dealloc cfg s p ih hfree

/-- C4: in every reachable Metaslab state, `is_full` - which reads exactly
the condition `link == 1` - is true if and only if every block in the slab
is claimed (`used = numBlocks`) and `head` equals the fully-bump-allocated
sentinel value 1; in particular `is_full` implies `head == 1`. -/
theorem is_full_exact (cfg : SlabCfg) (s : SlabState) (h : Reach cfg s) :
    (is_full s.meta = true ↔ (s.meta.used = numBlocks cfg ∧ s.meta.head = 1)) ∧
    (is_full s.meta = true → s.meta.head = 1) := by
  have hfull_iff : is_full s.meta = true ↔ s.meta.link = 1 := by simp [is_full]
  rcases reach_good cfg s h with ⟨hl, hh, hu⟩ | ⟨fl, bump, hd⟩
  · exact ⟨⟨fun _ => ⟨hu, hh⟩, fun _ => hfull_iff.mpr hl⟩, fun _ => hh⟩
  · have hdfull : Decomp cfg s fl bump := hd
    have hlne : ¬ s.meta.link = 1 := isBlock_ne_one cfg _ hd.1
    have hbounds := decomp_bounds cfg s fl bump hdfull
    have hult : s.meta.used < numBlocks cfg := by omega
    exact ⟨⟨fun hf => absurd (hfull_iff.mp hf) hlne,
      fun hc => absurd hc.1 (by omega)⟩,
      fun hf => absurd (hfull_iff.mp hf) hlne⟩

/-- A concrete configuration: a standard slab of size-class with block size
16 and initial link offset 0. -/
def cfgEx : SlabCfg where
  size := 16
  off0 := 0
  size_pos := by decide
  size_even := by decide
  off0_even := by decide
  fits := by decide
  aligned := ⟨1024, by norm_num [SLAB_SIZE]⟩

/-- The freshly carved slab state for `cfgEx` with zeroed memory. -/
def initEx : SlabState :=
  ⟨⟨0, (cfgEx.off0 + cfgEx.size + 1) % SLAB_SIZE, cfgEx.off0, 0, 0⟩, fun _ => 0⟩

/-- Witness for C4 at the freshly carved slab. -/
theorem is_full_exact_witness :
    (is_full initEx.meta = true ↔
      (initEx.meta.used = numBlocks cfgEx ∧ initEx.meta.head = 1)) ∧
    (is_full initEx.meta = true → initEx.meta.head = 1) :=
  is_full_exact cfgEx initEx (Reach.init 0 0 (fun _ => 0))

/-- Iterating the truncated successor along a chain visits exactly the free
list followed by the terminator. -/
theorem isChain_iterate (mem : Nat → Nat) :
    ∀ (fl : List Nat) (h t : Nat), isChain mem h fl t →
      (∀ p ∈ fl, mem p < 65536) →
      (∀ k (hk : k < fl.length),
        ((fun q => mem q % 65536)^[k]) h = fl.get ⟨k, hk⟩) ∧
      ((fun q => mem q % 65536)^[fl.length]) h = t := by
  intro fl
  induction fl with
  | nil =>
    intro h t hch _
    exact ⟨fun k hk => absurd hk (Nat.not_lt_zero k), by simpa using hch⟩
  | cons x rest ih =>
    intro h t hch hb
    have hx : h = x := hch.1
    have hgh : mem h % 65536 = mem x := by
      rw [hx]
      exact Nat.mod_eq_of_lt (hb x (List.mem_cons_self x rest))
    obtain ⟨iha, ihb⟩ := ih (mem x) t hch.2
      (fun p hp => hb p (List.mem_cons_of_mem x hp))
    constructor
    · intro k hk
      cases k with
      | zero => simpa using hx
      | succ n =>
        rw [Function.iterate_succ_apply, hgh]
        have hn : n < rest.length := by
          have h2 : n + 1 < (x :: rest).length := hk
          simpa using h2
        rw [iha n hn]
        rfl
    · show ((fun q => mem q % 65536)^[(x :: rest).length]) h = t
      rw [show (x :: rest).length = rest.length + 1 from rfl,
        Function.iterate_succ_apply, hgh]
      exact ihb

/-- C5: for every reachable state of a not-full slab, the free-list segment
traversed from `head` by the `follow_next` successor is finite: it reaches a
bump-tagged (low bit 1) terminator within at most the number of blocks in
the slab, never revisits a node along the way, and never passes through the
`link` offset. -/
theorem free_list_traversal (cfg : SlabCfg) (s : SlabState) (h : Reach cfg s)
    (hnf : is_full s.meta = false) :
    ∃ T, T ≤ numBlocks cfg ∧
      (((fun q => s.mem q % 65536)^[T]) s.meta.head) % 2 = 1 ∧
      (∀ a b, a < b → b ≤ T →
        ((fun q => s.mem q % 65536)^[a]) s.meta.head ≠
          ((fun q => s.mem q % 65536)^[b]) s.meta.head) ∧
      (∀ a, a < T →
        ((fun q => s.mem q % 65536)^[a]) s.meta.head ≠ s.meta.link) := by
  have hlne : ¬ s.meta.link = 1 := by simpa [is_full] using hnf
  rcases reach_good cfg s h with ⟨hl, -, -⟩ | ⟨fl, bump, hd⟩
  · exact absurd hl hlne
  · have hdfull : Decomp cfg s fl bump := hd
    obtain ⟨hlb, hbp, hlk, hnd, hmem, hnl, hch, hused⟩ := hd
    have hbounds := decomp_bounds cfg s fl bump hdfull
    obtain ⟨htodd, htlt, -, -⟩ := tag_spec cfg bump hbp
    have hS : SLAB_SIZE = 16384 := rfl
    have hfb : ∀ p ∈ fl, s.mem p < 65536 := by
      intro p hp
      rcases isChain_next_mem s.mem fl s.meta.head _ hch p hp with hin | heq
      · have := isBlock_lt cfg _ (hmem _ hin).1
        omega
      · rw [heq]
        omega
    obtain ⟨hit, hlast⟩ := isChain_iterate s.mem fl s.meta.head _ hch hfb
    refine ⟨fl.length, by omega, ?_, ?_, ?_⟩
    · rw [hlast]
      exact htodd
    · intro a b hab hbT heq
      by_cases hbl : b = fl.length
      · subst hbl
        rw [hlast, hit a (by omega)] at heq
        have hmemA : fl.get ⟨a, by omega⟩ ∈ fl := List.get_mem fl _ _
        have heven := isBlock_even cfg _ (hmem _ hmemA).1
        rw [heq] at heven
        omega
      · have hblt : b < fl.length := by omega
        rw [hit a (by omega), hit b hblt] at heq
        have hfin := (List.Nodup.get_inj_iff hnd).mp heq
        have : a = b := congrArg Fin.val hfin
        omega
    · intro a ha heq
      rw [hit a ha] at heq
      exact hnl (heq ▸ List.get_mem fl _ _)

/-- Witness for C5 at the freshly carved slab (segment of length 0: the head
is already the tagged bump cursor). -/
theorem free_list_traversal_witness :
    ∃ T, T ≤ numBlocks cfgEx ∧
      (((fun q => initEx.mem q % 65536)^[T]) initEx.meta.head) % 2 = 1 ∧
      (∀ a b, a < b → b ≤ T →
        ((fun q => initEx.mem q % 65536)^[a]) initEx.meta.head ≠
          ((fun q => initEx.mem q % 65536)^[b]) initEx.meta.head) ∧
      (∀ a, a < T →
        ((fun q => initEx.mem q % 65536)^[a]) initEx.meta.head ≠ initEx.meta.link) :=
  free_list_traversal cfgEx initEx (Reach.init 0 0 (fun _ => 0)) (by decide)

/-- Modelled from the spec: `remove_cache_friendly_offset(offset, sizeclass)`
reverses an optional build-time constant byte offset applied to block
placement; in the default build (`CACHE_FRIENDLY_OFFSET` off) it is the
identity. -/
def remove_cache_friendly_offset (x : Nat) (sc : Nat) : Nat := x

/-- The free-list accounting loop of `Metaslab::debug_slab_invariant` (its
while loop plus the post-loop checks), embedded with fuel (`false` on fuel
exhaustion).  Each iteration checks block alignment of the visited node
(with `size_t` subtraction semantics for `start - offset`), accounts one
block, checks the running total and that the node is not the link, and
follows the stored next offset.  On the tagged terminator it adds remaining
bump headroom (checking `link` still equals the initial offset) when the
terminator is not 1, asserts the slab is not full, accounts the link block
and requires the total to equal `SLAB_SIZE` exactly. -/
def invWalk (cfg : SlabCfg) (mem : Nat → Nat) (link sc : Nat) :
    Nat → Nat → Nat → Bool
  | 0, _, _ => false
  | fuel + 1, curr, acc =>
    if curr % 2 = 1 then
      if curr = 1 then
        decide (¬ link = 1) && decide (SLAB_SIZE = acc + cfg.size)
      else
        decide ((2 ^ 64 + remove_cache_friendly_offset (2 * (curr / 2)) sc
          - cfg.off0) % 2 ^ 64 % cfg.size = 0) &&
        decide (link = cfg.off0) &&
        decide (¬ link = 1) &&
        decide (SLAB_SIZE = acc + (SLAB_SIZE - (curr - 1)) + cfg.size)
    else
      decide ((2 ^ 64 + remove_cache_friendly_offset curr sc - cfg.off0)
        % 2 ^ 64 % cfg.size = 0) &&
      decide (acc + cfg.size ≤ SLAB_SIZE) &&
      decide (¬ curr = link) &&
      invWalk cfg mem link sc fuel (mem curr % 65536) (acc + cfg.size)

/-- `Metaslab::debug_slab_invariant`: every assertion is conjoined into one
Boolean.  The externally supplied `sizeclass_to_size` and
`get_initial_link` lookups are folded into `cfg.size` and `cfg.off0`. -/
def debug_slab_invariant (cfg : SlabCfg) (s : SlabState) : Bool :=
  if is_full s.meta then
    decide (SLAB_SIZE = s.meta.used * cfg.size + cfg.off0)
  else
    decide (s.meta.used * cfg.size + cfg.off0 < SLAB_SIZE) &&
    (debug_slab_acyclic_free_list (fun q => s.mem q % 65536) s.meta.head 131073
      == some WalkOutcome.normal) &&
    invWalk cfg s.mem s.meta.link s.meta.sizeclass 16385 s.meta.head
      (s.meta.used * cfg.size + cfg.off0)

/-- The alignment assertion of the accounting walk holds on aligned block
offsets (the `size_t` subtraction wraps past `2 ^ 64`, which cancels). -/
theorem aligned_check (cfg : SlabCfg) (x : Nat) (hx0 : cfg.off0 ≤ x)
    (hxlt : x < 2 ^ 64) (hdvd : cfg.size ∣ (x - cfg.off0)) :
    (2 ^ 64 + x - cfg.off0) % 2 ^ 64 % cfg.size = 0 := by
  have h1 : 2 ^ 64 + x - cfg.off0 = 2 ^ 64 + (x - cfg.off0) := by omega
  rw [h1, Nat.add_mod_left,
    Nat.mod_eq_of_lt (show x - cfg.off0 < 2 ^ 64 by omega)]
  obtain ⟨c, hc⟩ := hdvd
  rw [hc]
  exact Nat.mul_mod_right _ _

theorem invWalk_correct (cfg : SlabCfg) (mem : Nat → Nat) (link sc bump : Nat)
    (hbp : IsBump cfg bump) (hlb : IsBlock cfg link)
    (hlk : bump < SLAB_SIZE → link = cfg.off0) :
    ∀ (fl : List Nat) (h acc fuel : Nat),
      isChain mem h fl ((bump + 1) % SLAB_SIZE) →
      (∀ p ∈ fl, IsBlock cfg p ∧ p < bump) →
      link ∉ fl →
      fl.length < fuel →
      acc + (fl.length + 1) * cfg.size + (SLAB_SIZE - bump) = SLAB_SIZE →
      invWalk cfg mem link sc fuel h acc = true := by
  intro fl
  induction fl with
  | nil =>
    intro h acc fuel hch hmem hnl hfuel hacc
    obtain ⟨fuel, rfl⟩ : ∃ f, fuel = f + 1 := ⟨fuel - 1, by omega⟩
    obtain ⟨htodd, htlt, htlt_eq, hteq1⟩ := tag_spec cfg bump hbp
    have hS : SLAB_SIZE = 16384 := rfl
    have hh : h = (bump + 1) % SLAB_SIZE := hch
    simp only [List.length_nil, Nat.zero_add, Nat.one_mul] at hacc
    rw [invWalk, if_pos (by rw [hh]; exact htodd)]
    rcases Nat.lt_or_ge bump SLAB_SIZE with hblt | hbge
    · have hb1 : h = bump + 1 := by rw [hh, htlt_eq hblt]
      have hbne1 : ¬ h = 1 := by
        rw [hb1]
        have := hbp.1
        have := cfg.size_pos
        omega
      rw [if_neg hbne1]
      have heven := isBump_even cfg bump hbp
      have hcu : 2 * (h / 2) = bump := by rw [hb1]; omega
      simp only [Bool.and_eq_true, decide_eq_true_eq, remove_cache_friendly_offset]
      refine ⟨⟨⟨?_, hlk hblt⟩, isBlock_ne_one cfg link hlb⟩, ?_⟩
      · rw [hcu]
        refine aligned_check cfg bump ?_ (by omega) hbp.2.2
        have := hbp.1
        have := cfg.size_pos
        omega
      · have hb2 : h - 1 = bump := by omega
        rw [hb2]
        omega
    · have hbeq : bump = SLAB_SIZE := by have := hbp.2.1; omega
      have hb1 : h = 1 := by rw [hh]; exact hteq1 hbeq
      rw [if_pos hb1]
      simp only [Bool.and_eq_true, decide_eq_true_eq]
      exact ⟨isBlock_ne_one cfg link hlb, by omega⟩
  | cons x rest ih =>
    intro h acc fuel hch hmem hnl hfuel hacc
    obtain ⟨fuel, rfl⟩ : ∃ f, fuel = f + 1 := ⟨fuel - 1, by omega⟩
    obtain ⟨hxb, hxlt⟩ := hmem x (List.mem_cons_self x rest)
    have hx : h = x := hch.1
    have hxe := isBlock_even cfg x hxb
    have hS : SLAB_SIZE = 16384 := rfl
    have hmul : (rest.length + 1 + 1) * cfg.size =
        (rest.length + 1) * cfg.size + cfg.size := by ring
    simp only [List.length_cons] at hacc hfuel
    rw [hmul] at hacc
    rw [invWalk, if_neg (by rw [hx]; omega)]
    simp only [Bool.and_eq_true, decide_eq_true_eq, remove_cache_friendly_offset]
    refine ⟨⟨⟨?_, by omega⟩, ?_⟩, ?_⟩
    · rw [hx]
      exact aligned_check cfg x hxb.1 (by have := isBlock_lt cfg x hxb; omega) hxb.2.2
    · rw [hx]
      exact fun he => hnl (he ▸ List.mem_cons_self x rest)
    · have hmxlt : mem x < SLAB_SIZE := by
        cases rest with
        | nil =>
          have hmx : mem x = (bump + 1) % SLAB_SIZE := hch.2
          rw [hmx]
          exact (tag_spec cfg bump hbp).2.1
        | cons y ys =>
          have hmx : mem x = y := hch.2.1
          rw [hmx]
          exact isBlock_lt cfg y (hmem y (by simp)).1
      rw [hx, Nat.mod_eq_of_lt (by omega : mem x < 65536)]
      exact ih (mem x) (acc + cfg.size) fuel hch.2
        (fun p hp => hmem p (List.mem_cons_of_mem x hp))
        (fun hm => hnl (List.mem_cons_of_mem x hm))
        (by omega) (by omega)

/-- C3: in every state reachable by claim/release operations respecting the
documented discipline, every assertion of `debug_slab_invariant` holds - in
particular used blocks, free-list blocks, remaining bump headroom and the
reserved link block account for `SLAB_SIZE` exactly. -/
theorem slab_invariant_reachable (cfg : SlabCfg) (s : SlabState) (h : Reach cfg s) :
    debug_slab_invariant cfg s = true := by
  have hS : SLAB_SIZE = 16384 := rfl
  rcases reach_good cfg s h with ⟨hl, hh, hu⟩ | ⟨fl, bump, hd⟩
  · rw [debug_slab_invariant, if_pos (by simp [is_full, hl]), decide_eq_true_eq]
    have hmul : numBlocks cfg * cfg.size = SLAB_SIZE - cfg.off0 :=
      Nat.div_mul_cancel cfg.aligned
    have hfits := cfg.fits
    rw [hu]
    omega
  · have hdfull : Decomp cfg s fl bump := hd
    obtain ⟨hlb, hbp, hlk, hnd, hmem, hnl, hch, hused⟩ := hd
    have hlne : ¬ s.meta.link = 1 := isBlock_ne_one cfg _ hlb
    have hbounds := decomp_bounds cfg s fl bump hdfull
    obtain ⟨htodd, htlt, -, -⟩ := tag_spec cfg bump hbp
    rw [debug_slab_invariant, if_neg (by simp [is_full, hlne])]
    have hKmul : ((bump - cfg.off0) / cfg.size) * cfg.size = bump - cfg.off0 :=
      Nat.div_mul_cancel hbp.2.2
    have husedmul : s.meta.used * cfg.size + (fl.length + 1) * cfg.size =
        ((bump - cfg.off0) / cfg.size) * cfg.size := by
      rw [← Nat.add_mul]
      exact congrArg (fun z => z * cfg.size)
        (show s.meta.used + (fl.length + 1) = (bump - cfg.off0) / cfg.size by omega)
    have hsize_le : cfg.size ≤ (fl.length + 1) * cfg.size :=
      Nat.le_mul_of_pos_left _ (by omega)
    have hb1 := hbp.1
    have hb2 := hbp.2.1
    have hsp := cfg.size_pos
    rw [Bool.and_eq_true, Bool.and_eq_true]
    refine ⟨⟨?_, ?_⟩, ?_⟩
    · rw [decide_eq_true_eq]
      omega
    · have hfb : ∀ p ∈ fl, s.mem p < 65536 := by
        intro p hp
        rcases isChain_next_mem s.mem fl s.meta.head _ hch p hp with hin | heq
        · have := isBlock_lt cfg _ (hmem _ hin).1
          omega
        · rw [heq]
          omega
      obtain ⟨hit, hlast⟩ := isChain_iterate s.mem fl s.meta.head _ hch hfb
      have hdist : ∀ m, 0 < m → m ≤ fl.length →
          ((fun q => s.mem q % 65536)^[m]) s.meta.head ≠
            ((fun q => s.mem q % 65536)^[m / 2]) s.meta.head := by
        intro m hm1 hm2 heq
        by_cases hml : m = fl.length
        · rw [hml, hlast, hit (fl.length / 2) (by omega)] at heq
          have hmemA : fl.get ⟨fl.length / 2, by omega⟩ ∈ fl := List.get_mem fl _ _
          have heven := isBlock_even cfg _ (hmem _ hmemA).1
          rw [← heq] at heven
          omega
        · rw [hit m (by omega), hit (m / 2) (by omega)] at heq
          have hfin := (List.Nodup.get_inj_iff hnd).mp heq
          have : m = m / 2 := congrArg Fin.val hfin
          omega
      have huntag : ∀ m, 0 ≤ m → m < fl.length →
          ¬ ((fun q => s.mem q % 65536)^[m]) s.meta.head % 2 = 1 := by
        intro m _ hm
        rw [hit m hm]
        have hmemA : fl.get ⟨m, hm⟩ ∈ fl := List.get_mem fl _ _
        have heven := isBlock_even cfg _ (hmem _ hmemA).1
        omega
      have htag : ((fun q => s.mem q % 65536)^[fl.length]) s.meta.head % 2 = 1 := by
        rw [hlast]
        exact htodd
      have hwalk := walkAux_normal_of_tag (fun q => s.mem q % 65536) s.meta.head
        131073 0 fl.length (Nat.zero_le _) (by omega) htag
        (fun m hm1 hm2 => huntag m hm1 hm2)
        (fun m hm1 hm2 => hdist m hm1 hm2)
      have hres : debug_slab_acyclic_free_list (fun q => s.mem q % 65536)
          s.meta.head 131073 = some WalkOutcome.normal := hwalk
      rw [hres]
      rfl
    · have hNle : numBlocks cfg ≤ SLAB_SIZE - cfg.off0 := Nat.div_le_self _ _
      refine invWalk_correct cfg s.mem s.meta.link s.meta.sizeclass bump hbp hlb hlk
        fl s.meta.head (s.meta.used * cfg.size + cfg.off0) 16385 hch hmem hnl
        (by omega) ?_
      omega

/-- Witness for C3 at the freshly carved slab. -/
theorem slab_invariant_reachable_witness :
    debug_slab_invariant cfgEx initEx = true :=
  slab_invariant_reachable cfgEx initEx (Reach.init 0 0 (fun _ => 0))
